import Mathlib

/-!
Verification of the Vigenère cipher engine (`vigenere.py`).

The embedding models strings as `List Char`.  Python exceptions are
modelled by `Except Err`:

* `ValueError("@passkey must be a subset of @charset.")` → `Err.invalidPasskey`
* `ValueError("Text cannot contain passkey.")`           → `Err.passkeyLeakage`
* `ValueError("Text contains characters not in @charset: ...")`
                                                         → `Err.invalidCharacters`
* `ValueError("Value for @sep can't be ...")`            → `Err.invalidSeparator`
* uncaught `KeyError` / `ValueError` / `IndexError` from dict, `str.index`
  and string subscription inside the transform loops → `Err.lookupFailure`
  (these are unreachable after successful validation).
-/

namespace Vig

/-- `startsWithSub pat s` : the pattern `pat` occurs at the very start of `s`. -/
def startsWithSub : List Char → List Char → Bool
  | [], _ => true
  | _ :: _, [] => false
  | p :: ps, s :: ss => p == s && startsWithSub ps ss

/-- `containsSub pat s` models Python substring containment `pat in s`. -/
def containsSub (pat : List Char) : List Char → Bool
  | [] => startsWithSub pat []
  | c :: ss => startsWithSub pat (c :: ss) || containsSub pat ss

/-- `pyIndex c l` models Python `l.index(c)` on a string: position of the first
occurrence of `c` in `l`, `none` when absent (Python raises `ValueError`). -/
def pyIndex (c : Char) : List Char → Option Nat
  | [] => none
  | x :: xs => if x = c then some 0 else (pyIndex c xs).map (· + 1)

/-- Error taxonomy of the module (all `ValueError`s in Python, plus the
uncaught lookup exceptions, see the module comment). -/
inductive Err where
  | invalidPasskey
  | passkeyLeakage
  | invalidCharacters (diff : List Char)
  | invalidSeparator
  | lookupFailure
deriving DecidableEq

/-- The engine state: the two fields stored by `Vigenere.__init__`
(`self.rows` is pure derived data, recomputed by `rowsList` below). -/
structure Vigenere where
  passkey : List Char
  charset : List Char
deriving DecidableEq

/-- `Vigenere.__init__`: fails with `InvalidPasskey` unless
`set(passkey).issubset(set(charset))`; on success the two fields are stored
unchanged. -/
def Vigenere.make (passkey charset : List Char) : Except Err Vigenere :=
  if passkey.all (fun c => decide (c ∈ charset)) then
    Except.ok ⟨passkey, charset⟩
  else
    Except.error Err.invalidPasskey

/-- The row `self.charset[i:] + self.charset[:i]` of the substitution table. -/
def rowAt (cs : List Char) (i : Nat) : List Char :=
  cs.drop i ++ cs.take i

/-- The dict comprehension
`{letter: charset[i:] + charset[:i] for i, letter in enumerate(charset)}`
as an association list in insertion order, keys in `charset` order. -/
def rowsAux (cs : List Char) : Nat → List Char → List (Char × List Char)
  | _, [] => []
  | i, c :: rest => (c, rowAt cs i) :: rowsAux cs (i + 1) rest

/-- `self.rows` as an insertion-ordered association list. -/
def Vigenere.rowsList (v : Vigenere) : List (Char × List Char) :=
  rowsAux v.charset 0 v.charset

/-- Lookup in an association list, first match wins. -/
def dictLookup (k : Char) : List (Char × List Char) → Option (List Char)
  | [] => none
  | p :: rest => if p.1 = k then some p.2 else dictLookup k rest

/-- `self.rows[c]`: Python dict lookup.  In a dict comprehension a later
binding of the same key overwrites an earlier one, so the lookup returns the
value of the LAST entry with key `c`; `none` models `KeyError`. -/
def Vigenere.row (v : Vigenere) (c : Char) : Option (List Char) :=
  dictLookup c v.rowsList.reverse

/-- `Vigenere._fitted_passkey`: the passkey repeated/truncated to the length
of `text`.  (For an empty passkey and non-empty text Python would raise
`ZeroDivisionError`; both call sites run `_validate_text` first, which always
raises for an empty passkey, so that branch is unreachable in the program.) -/
def Vigenere.fittedPasskey (v : Vigenere) (text : List Char) : List Char :=
  if text.length ≤ v.passkey.length then
    v.passkey.take text.length
  else
    (List.range (text.length / v.passkey.length - 1)).foldl
      (fun acc _ => acc ++ v.passkey) v.passkey
      ++ v.passkey.take (text.length % v.passkey.length)

/-- `Vigenere._validate_text`: first the passkey-substring check, then the
character-set check; the reported `diff` is the set of distinct symbols of
`text` absent from the charset (Python reports it as a `set`; here it is a
duplicate-free list). -/
def Vigenere.validateText (v : Vigenere) (text : List Char) : Except Err Unit :=
  if containsSub v.passkey text then
    Except.error Err.passkeyLeakage
  else if text.all (fun c => decide (c ∈ v.charset)) then
    Except.ok ()
  else
    Except.error (Err.invalidCharacters ((text.filter (fun c => decide (c ∉ v.charset))).dedup))

/-- One step of the encryption loop:
`charset_pos = self.charset.index(passkey_char)`;
`encrypted_char = self.rows[text[i]][charset_pos]`. -/
def Vigenere.encryptChar (v : Vigenere) (pc tc : Char) : Except Err Char :=
  match pyIndex pc v.charset with
  | none => Except.error Err.lookupFailure
  | some pos =>
    match v.row tc with
    | none => Except.error Err.lookupFailure
    | some r =>
      match r[pos]? with
      | none => Except.error Err.lookupFailure
      | some c => Except.ok c

/-- The loop of `Vigenere.encrypt`: iterate over the fitted passkey with
index `i`, subscripting `text[i]`. -/
def encLoop (v : Vigenere) (text : List Char) : Nat → List Char → Except Err (List Char)
  | _, [] => Except.ok []
  | i, pc :: rest =>
    match text[i]? with
    | none => Except.error Err.lookupFailure
    | some tc =>
      match v.encryptChar pc tc with
      | Except.error e => Except.error e
      | Except.ok ec =>
        match encLoop v text (i + 1) rest with
        | Except.error e => Except.error e
        | Except.ok out => Except.ok (ec :: out)

/-- `Vigenere.encrypt`: validate, then transform. -/
def Vigenere.encrypt (v : Vigenere) (text : List Char) : Except Err (List Char) :=
  match v.validateText text with
  | Except.error e => Except.error e
  | Except.ok _ => encLoop v text 0 (v.fittedPasskey text)

/-- One step of the decryption loop:
`row_pos = self.rows[passkey_char].index(text[i])`;
`decrypted_char = self.charset[row_pos]`. -/
def Vigenere.decryptChar (v : Vigenere) (pc tc : Char) : Except Err Char :=
  match v.row pc with
  | none => Except.error Err.lookupFailure
  | some r =>
    match pyIndex tc r with
    | none => Except.error Err.lookupFailure
    | some pos =>
      match v.charset[pos]? with
      | none => Except.error Err.lookupFailure
      | some c => Except.ok c

/-- The loop of `Vigenere.decrypt`. -/
def decLoop (v : Vigenere) (text : List Char) : Nat → List Char → Except Err (List Char)
  | _, [] => Except.ok []
  | i, pc :: rest =>
    match text[i]? with
    | none => Except.error Err.lookupFailure
    | some tc =>
      match v.decryptChar pc tc with
      | Except.error e => Except.error e
      | Except.ok dc =>
        match decLoop v text (i + 1) rest with
        | Except.error e => Except.error e
        | Except.ok out => Except.ok (dc :: out)

/-- `Vigenere.decrypt`: validate, then transform. -/
def Vigenere.decrypt (v : Vigenere) (text : List Char) : Except Err (List Char) :=
  match v.validateText text with
  | Except.error e => Except.error e
  | Except.ok _ => decLoop v text 0 (v.fittedPasskey text)

/-- Python `repr` of a one-character string, simplified to plain quoting:
the claims about `show` only concern the error condition and the
line/separator structure of the output, never the escaping rules of `repr`. -/
def pyRepr (c : Char) : List Char :=
  Char.ofNat 39 :: c :: [Char.ofNat 39]

/-- Python `sep.join(parts)`. -/
def joinSep (sep : List Char) : List (List Char) → List Char
  | [] => []
  | [x] => x
  | x :: y :: xs => x ++ sep ++ joinSep sep (y :: xs)

/-- One output line of `Vigenere.show`:
`repr(key) + sep + sep.join([repr(v) for v in vals]) + "\n"`. -/
def lineOf (sep : List Char) (kv : Char × List Char) : List Char :=
  pyRepr kv.1 ++ sep ++ joinSep sep (kv.2.map pyRepr) ++ [Char.ofNat 10]

/-- `Vigenere.show` (renamed: `show` is a Lean keyword): guard
`any([sep in self.charset, sep == "\n"])`, then accumulate one line per row
of the table. -/
def Vigenere.showTable (v : Vigenere) (sep : List Char) : Except Err (List Char) :=
  if containsSub sep v.charset = true ∨ sep = [Char.ofNat 10] then
    Except.error Err.invalidSeparator
  else
    Except.ok (v.rowsList.foldl (fun acc kv => acc ++ lineOf sep kv) [])

/-- `P` repeated `m` whole times (used to state the keystream-fitting claim). -/
def repeatList (P : List Char) : Nat → List Char
  | 0 => []
  | m + 1 => P ++ repeatList P m

/-! ### Basic lemmas about the substring test and `pyIndex` -/

theorem containsSub_nil (s : List Char) : containsSub [] s = true := by
  cases s <;> simp [containsSub, startsWithSub]

theorem ne_nil_of_containsSub_eq_false {pat s : List Char}
    (h : containsSub pat s = false) : pat ≠ [] := by
  intro hp
  rw [hp, containsSub_nil] at h
  exact Bool.noConfusion h

theorem pyIndex_getElem? {c : Char} :
    ∀ {l : List Char} {i : Nat}, pyIndex c l = some i → l[i]? = some c := by
  intro l
  induction l with
  | nil => intro i h; exact Option.noConfusion h
  | cons x xs ih =>
    intro i h
    unfold pyIndex at h
    by_cases hx : x = c
    · simp only [if_pos hx] at h
      cases h
      simpa using hx
    · simp only [if_neg hx, Option.map_eq_some'] at h
      obtain ⟨j, hj, rfl⟩ := h
      simpa using ih hj

theorem pyIndex_of_mem {c : Char} :
    ∀ {l : List Char}, c ∈ l → ∃ i, pyIndex c l = some i := by
  intro l
  induction l with
  | nil => intro h; exact absurd h (List.not_mem_nil c)
  | cons x xs ih =>
    intro h
    by_cases hx : x = c
    · exact ⟨0, by simp [pyIndex, hx]⟩
    · have hm : c ∈ xs := by
        cases List.mem_cons.mp h with
        | inl he => exact absurd he.symm hx
        | inr hm => exact hm
      obtain ⟨j, hj⟩ := ih hm
      exact ⟨j + 1, by simp [pyIndex, hx, hj]⟩

theorem pyIndex_of_nodup {c : Char} :
    ∀ {l : List Char} {i : Nat}, l.Nodup → l[i]? = some c → pyIndex c l = some i := by
  intro l
  induction l with
  | nil => intro i _ h; simp at h
  | cons x xs ih =>
    intro i hn h
    obtain ⟨hx, hxs⟩ := List.nodup_cons.mp hn
    cases i with
    | zero =>
      simp only [List.getElem?_cons_zero, Option.some.injEq] at h
      simp [pyIndex, h]
    | succ j =>
      simp only [List.getElem?_cons_succ] at h
      have hne : x ≠ c := by
        intro he
        exact hx (he ▸ List.getElem?_mem h)
      simp [pyIndex, hne, ih hxs h]

theorem pyIndex_lt_length {c : Char} {l : List Char} {i : Nat}
    (h : pyIndex c l = some i) : i < l.length := by
  have := pyIndex_getElem? h
  by_contra hge
  rw [List.getElem?_eq_none (Nat.le_of_not_lt hge)] at this
  exact Option.noConfusion this

/-! ### Lemmas about the table rows -/

theorem rowAt_perm (cs : List Char) (i : Nat) : (rowAt cs i).Perm cs := by
  unfold rowAt
  exact List.perm_append_comm.trans (by rw [List.take_append_drop])

theorem rowAt_length (cs : List Char) (i : Nat) : (rowAt cs i).length = cs.length :=
  (rowAt_perm cs i).length_eq

theorem rowAt_nodup {cs : List Char} (hn : cs.Nodup) (i : Nat) : (rowAt cs i).Nodup :=
  (rowAt_perm cs i).symm.nodup hn

theorem rowAt_zero (cs : List Char) : rowAt cs 0 = cs := by
  simp [rowAt]

theorem rowAt_getElem? (cs : List Char) (i j : Nat)
    (hi : i ≤ cs.length) (hj : j < cs.length) :
    (rowAt cs i)[j]? = cs[(i + j) % cs.length]? := by
  unfold rowAt
  by_cases h : j < cs.length - i
  · rw [List.getElem?_append_left (by simpa using h)]
    rw [List.getElem?_drop]
    rw [Nat.mod_eq_of_lt (by omega)]
  · rw [List.getElem?_append_right (by simp; omega)]
    rw [List.length_drop]
    rw [List.getElem?_take_of_lt (by omega)]
    rw [Nat.mod_eq_sub_mod (by omega), Nat.mod_eq_of_lt (by omega)]
    congr 1
    omega

/-! ### Lemmas about the rows dictionary -/

theorem rowsAux_keys (cs : List Char) :
    ∀ (l : List Char) (i : Nat), (rowsAux cs i l).map Prod.fst = l := by
  intro l
  induction l with
  | nil => intro i; rfl
  | cons x rest ih => intro i; simp [rowsAux, ih]

theorem rowsAux_length (cs : List Char) :
    ∀ (l : List Char) (i : Nat), (rowsAux cs i l).length = l.length := by
  intro l
  induction l with
  | nil => intro i; rfl
  | cons x rest ih => intro i; simp [rowsAux, ih]

theorem mem_rowsAux_of_getElem? (cs : List Char) :
    ∀ (l : List Char) (i j : Nat) {c : Char},
      l[j]? = some c → (c, rowAt cs (i + j)) ∈ rowsAux cs i l := by
  intro l
  induction l with
  | nil => intro i j c h; simp at h
  | cons x rest ih =>
    intro i j c h
    cases j with
    | zero =>
      simp only [List.getElem?_cons_zero, Option.some.injEq] at h
      subst h
      simp [rowsAux]
    | succ j =>
      simp only [List.getElem?_cons_succ] at h
      have := ih (i + 1) j h
      rw [show i + 1 + j = i + (j + 1) by omega] at this
      exact List.mem_cons_of_mem _ this

theorem mem_rowsAux_elim (cs : List Char) :
    ∀ (l : List Char) (i : Nat) {c : Char} {r : List Char},
      (c, r) ∈ rowsAux cs i l → ∃ j, l[j]? = some c ∧ r = rowAt cs (i + j) := by
  intro l
  induction l with
  | nil => intro i c r h; simp [rowsAux] at h
  | cons x rest ih =>
    intro i c r h
    cases List.mem_cons.mp h with
    | inl he =>
      have hc : c = x := congrArg Prod.fst he
      have hr : r = rowAt cs i := congrArg Prod.snd he
      exact ⟨0, by simp [hc], by simpa using hr⟩
    | inr hm =>
      obtain ⟨j, hj, hr⟩ := ih (i + 1) hm
      exact ⟨j + 1, by simpa using hj, by rw [hr]; congr 1; omega⟩

theorem dictLookup_eq_some_of_nodup_keys :
    ∀ {d : List (Char × List Char)} {k : Char} {val : List Char},
      (d.map Prod.fst).Nodup → (k, val) ∈ d → dictLookup k d = some val := by
  intro d
  induction d with
  | nil => intro k val _ h; exact absurd h (List.not_mem_nil _)
  | cons p rest ih =>
    intro k val hn hm
    rw [List.map_cons] at hn
    obtain ⟨hp, hrest⟩ := List.nodup_cons.mp hn
    cases List.mem_cons.mp hm with
    | inl he =>
      have hk : k = p.1 := (congrArg Prod.fst he).symm ▸ rfl
      have hv : val = p.2 := (congrArg Prod.snd he).symm ▸ rfl
      simp [dictLookup, hk.symm, hv]
    | inr hm' =>
      have hne : p.1 ≠ k := by
        intro he
        exact hp (he ▸ (List.mem_map_of_mem Prod.fst hm' : k ∈ rest.map Prod.fst))
      simp [dictLookup, hne, ih hrest hm']

theorem dictLookup_mem :
    ∀ {d : List (Char × List Char)} {k : Char} {val : List Char},
      dictLookup k d = some val → (k, val) ∈ d := by
  intro d
  induction d with
  | nil => intro k val h; exact Option.noConfusion h
  | cons p rest ih =>
    intro k val h
    unfold dictLookup at h
    by_cases hk : p.1 = k
    · rw [if_pos hk] at h
      cases h
      subst hk
      simp
    · rw [if_neg hk] at h
      exact List.mem_cons_of_mem _ (ih h)

theorem rowsList_keys (v : Vigenere) : v.rowsList.map Prod.fst = v.charset :=
  rowsAux_keys v.charset v.charset 0

theorem rowsList_length (v : Vigenere) : v.rowsList.length = v.charset.length :=
  rowsAux_length v.charset v.charset 0

theorem row_eq_of_nodup {v : Vigenere} (hn : v.charset.Nodup) {i : Nat} {c : Char}
    (h : v.charset[i]? = some c) : v.row c = some (rowAt v.charset i) := by
  unfold Vigenere.row
  apply dictLookup_eq_some_of_nodup_keys
  · rw [List.map_reverse, rowsList_keys]
    exact List.nodup_reverse.mpr hn
  · rw [List.mem_reverse]
    have := mem_rowsAux_of_getElem? v.charset v.charset 0 i h
    simpa using this

theorem row_elim {v : Vigenere} {c : Char} {r : List Char}
    (h : v.row c = some r) : ∃ j, v.charset[j]? = some c ∧ r = rowAt v.charset j := by
  unfold Vigenere.row at h
  have hm := dictLookup_mem h
  rw [List.mem_reverse] at hm
  obtain ⟨j, hj, hr⟩ := mem_rowsAux_elim v.charset v.charset 0 hm
  exact ⟨j, hj, by simpa using hr⟩

/-! ### Lemmas about keystream fitting -/

theorem repeatList_succ' (P : List Char) :
    ∀ m : Nat, repeatList P (m + 1) = repeatList P m ++ P := by
  intro m
  induction m with
  | zero => simp [repeatList]
  | succ m ih =>
    show P ++ repeatList P (m + 1) = (P ++ repeatList P m) ++ P
    rw [ih, List.append_assoc]

theorem repeatList_length (P : List Char) :
    ∀ m : Nat, (repeatList P m).length = m * P.length := by
  intro m
  induction m with
  | zero => simp [repeatList]
  | succ m ih =>
    show (P ++ repeatList P m).length = (m + 1) * P.length
    rw [List.length_append, ih, Nat.succ_mul]
    omega

theorem mem_repeatList {P : List Char} {c : Char} :
    ∀ {m : Nat}, c ∈ repeatList P m → c ∈ P := by
  intro m
  induction m with
  | zero => intro h; exact absurd h (List.not_mem_nil c)
  | succ m ih =>
    intro h
    rcases List.mem_append.mp h with h | h
    · exact h
    · exact ih h

theorem foldl_append_range (P acc : List Char) :
    ∀ m : Nat, (List.range m).foldl (fun a _ => a ++ P) acc = acc ++ repeatList P m := by
  intro m
  induction m with
  | zero => simp [repeatList]
  | succ m ih =>
    rw [List.range_succ, List.foldl_append, ih, repeatList_succ']
    show (acc ++ repeatList P m) ++ P = acc ++ (repeatList P m ++ P)
    rw [List.append_assoc]

theorem fittedPasskey_take {v : Vigenere} {text : List Char}
    (h : text.length ≤ v.passkey.length) :
    v.fittedPasskey text = v.passkey.take text.length := by
  unfold Vigenere.fittedPasskey
  rw [if_pos h]

theorem fittedPasskey_rep {v : Vigenere} {text : List Char}
    (hp : v.passkey ≠ []) (h : v.passkey.length < text.length) :
    v.fittedPasskey text =
      repeatList v.passkey (text.length / v.passkey.length)
        ++ v.passkey.take (text.length % v.passkey.length) := by
  unfold Vigenere.fittedPasskey
  rw [if_neg (Nat.not_le.mpr h)]
  rw [foldl_append_range]
  congr 1
  have hk : 0 < v.passkey.length := List.length_pos.mpr hp
  have hd : 1 ≤ text.length / v.passkey.length :=
    (Nat.le_div_iff_mul_le hk).mpr (by omega)
  conv_rhs =>
    rw [show text.length / v.passkey.length
          = (text.length / v.passkey.length - 1) + 1 by omega]
  rw [repeatList]

theorem fittedPasskey_length {v : Vigenere} (text : List Char)
    (hp : v.passkey ≠ []) :
    (v.fittedPasskey text).length = text.length := by
  have hk : 0 < v.passkey.length := List.length_pos.mpr hp
  by_cases h : text.length ≤ v.passkey.length
  · rw [fittedPasskey_take h, List.length_take]
    omega
  · have hlt : v.passkey.length < text.length := Nat.lt_of_not_le h
    rw [fittedPasskey_rep hp hlt, List.length_append, repeatList_length,
      List.length_take]
    have hmlt : text.length % v.passkey.length < v.passkey.length :=
      Nat.mod_lt _ hk
    rw [Nat.min_eq_left (Nat.le_of_lt hmlt), Nat.mul_comm]
    exact Nat.div_add_mod _ _

theorem fittedPasskey_congr {v : Vigenere} {t1 t2 : List Char}
    (h : t1.length = t2.length) : v.fittedPasskey t1 = v.fittedPasskey t2 := by
  unfold Vigenere.fittedPasskey
  rw [h]

theorem mem_fittedPasskey {v : Vigenere} {text : List Char} {c : Char}
    (h : c ∈ v.fittedPasskey text) : c ∈ v.passkey := by
  unfold Vigenere.fittedPasskey at h
  by_cases hle : text.length ≤ v.passkey.length
  · rw [if_pos hle] at h
    exact List.mem_of_mem_take h
  · rw [if_neg hle, foldl_append_range] at h
    rcases List.mem_append.mp h with h | h
    · rcases List.mem_append.mp h with h | h
      · exact h
      · exact mem_repeatList h
    · exact List.mem_of_mem_take h

theorem repeatList_single (c : Char) :
    ∀ m : Nat, repeatList [c] m = List.replicate m c := by
  intro m
  induction m with
  | zero => rfl
  | succ m ih =>
    show [c] ++ repeatList [c] m = List.replicate (m + 1) c
    rw [ih, List.replicate_succ]
    rfl

theorem fittedPasskey_single (cs : List Char) (c : Char) (text : List Char) :
    Vigenere.fittedPasskey ⟨[c], cs⟩ text = List.replicate text.length c := by
  by_cases h : text.length ≤ 1
  · rw [fittedPasskey_take (v := ⟨[c], cs⟩) (by simpa using h)]
    cases hL : text.length with
    | zero => rfl
    | succ m =>
      have hm : m = 0 := by omega
      subst hm
      rfl
  · have hlt : (1 : Nat) < text.length := Nat.lt_of_not_le h
    rw [fittedPasskey_rep (v := ⟨[c], cs⟩) (by simp) (by simpa using hlt)]
    show repeatList [c] (text.length / 1) ++ List.take (text.length % 1) [c]
        = List.replicate text.length c
    rw [Nat.div_one, Nat.mod_one, repeatList_single]
    simp

/-! ### Lemmas about validation -/

theorem lt_of_getElem?_eq_some {l : List Char} {i : Nat} {c : Char}
    (h : l[i]? = some c) : i < l.length := by
  by_contra hge
  rw [List.getElem?_eq_none (Nat.le_of_not_lt hge)] at h
  exact Option.noConfusion h

theorem validateText_ok_iff (v : Vigenere) (text : List Char) :
    v.validateText text = Except.ok () ↔
      containsSub v.passkey text = false ∧ ∀ c ∈ text, c ∈ v.charset := by
  unfold Vigenere.validateText
  by_cases h1 : containsSub v.passkey text = true
  · rw [if_pos h1]
    constructor
    · intro h; exact Except.noConfusion h
    · rintro ⟨hf, -⟩
      rw [h1] at hf
      exact Bool.noConfusion hf
  · rw [if_neg h1]
    have h1' : containsSub v.passkey text = false := by
      revert h1
      cases containsSub v.passkey text <;> simp
    by_cases h2 : text.all (fun c => decide (c ∈ v.charset)) = true
    · rw [if_pos h2]
      rw [List.all_eq_true] at h2
      simp only [decide_eq_true_eq] at h2
      constructor
      · intro _; exact ⟨h1', h2⟩
      · intro _; rfl
    · rw [if_neg h2]
      constructor
      · intro h; exact Except.noConfusion h
      · rintro ⟨-, hmem⟩
        refine absurd ?_ h2
        rw [List.all_eq_true]
        intro x hx
        exact decide_eq_true (hmem x hx)

theorem validateText_leak {v : Vigenere} {text : List Char}
    (h : containsSub v.passkey text = true) :
    v.validateText text = Except.error Err.passkeyLeakage := by
  unfold Vigenere.validateText
  rw [if_pos h]

theorem validateText_invalid {v : Vigenere} {text : List Char}
    (h1 : containsSub v.passkey text = false)
    (hc : ∃ c ∈ text, c ∉ v.charset) :
    v.validateText text = Except.error
      (Err.invalidCharacters ((text.filter (fun c => decide (c ∉ v.charset))).dedup)) := by
  unfold Vigenere.validateText
  rw [if_neg (by simp [h1])]
  have h2 : ¬ (text.all (fun c => decide (c ∈ v.charset)) = true) := by
    rw [List.all_eq_true]
    intro hall
    obtain ⟨c, hct, hcn⟩ := hc
    exact hcn (by simpa using hall c hct)
  rw [if_neg h2]

theorem diff_mem_iff (v : Vigenere) (text : List Char) (x : Char) :
    x ∈ (text.filter (fun c => decide (c ∉ v.charset))).dedup ↔
      x ∈ text ∧ x ∉ v.charset := by
  rw [List.mem_dedup, List.mem_filter]
  simp

theorem encrypt_error_of_validate {v : Vigenere} {text : List Char} {e : Err}
    (h : v.validateText text = Except.error e) :
    v.encrypt text = Except.error e := by
  unfold Vigenere.encrypt
  rw [h]

theorem decrypt_error_of_validate {v : Vigenere} {text : List Char} {e : Err}
    (h : v.validateText text = Except.error e) :
    v.decrypt text = Except.error e := by
  unfold Vigenere.decrypt
  rw [h]

theorem validate_ok_of_encrypt_ok {v : Vigenere} {text out : List Char}
    (h : v.encrypt text = Except.ok out) : v.validateText text = Except.ok () := by
  unfold Vigenere.encrypt at h
  cases hv : v.validateText text with
  | error e => rw [hv] at h; exact Except.noConfusion h
  | ok u => cases u; rfl

/-! ### Per-character correctness of the table transforms -/

theorem encryptChar_eq {v : Vigenere} (hn : v.charset.Nodup) {p c : Nat}
    {pc tc ec : Char}
    (hpc : v.charset[c]? = some pc) (htc : v.charset[p]? = some tc)
    (hec : v.charset[(p + c) % v.charset.length]? = some ec) :
    v.encryptChar pc tc = Except.ok ec := by
  have hcn : c < v.charset.length := lt_of_getElem?_eq_some hpc
  have hpn : p < v.charset.length := lt_of_getElem?_eq_some htc
  have h1 : pyIndex pc v.charset = some c := pyIndex_of_nodup hn hpc
  have h2 : v.row tc = some (rowAt v.charset p) := row_eq_of_nodup hn htc
  have h3 : (rowAt v.charset p)[c]? = some ec := by
    rw [rowAt_getElem? _ _ _ (Nat.le_of_lt hpn) hcn]
    exact hec
  simp only [Vigenere.encryptChar, h1, h2, h3]

theorem decryptChar_eq {v : Vigenere} (hn : v.charset.Nodup) {p c : Nat}
    {pc tc ec : Char}
    (hpc : v.charset[c]? = some pc) (htc : v.charset[p]? = some tc)
    (hec : v.charset[(p + c) % v.charset.length]? = some ec) :
    v.decryptChar pc ec = Except.ok tc := by
  have hcn : c < v.charset.length := lt_of_getElem?_eq_some hpc
  have hpn : p < v.charset.length := lt_of_getElem?_eq_some htc
  have h1 : v.row pc = some (rowAt v.charset c) := row_eq_of_nodup hn hpc
  have h2 : pyIndex ec (rowAt v.charset c) = some p := by
    apply pyIndex_of_nodup (rowAt_nodup hn c)
    rw [rowAt_getElem? _ _ _ (Nat.le_of_lt hcn) hpn, Nat.add_comm c p]
    exact hec
  simp only [Vigenere.decryptChar, h1, h2, htc]

theorem encryptChar_ok_elim {v : Vigenere} {pc tc ec : Char}
    (h : v.encryptChar pc tc = Except.ok ec) :
    ∃ col r, pyIndex pc v.charset = some col ∧ v.row tc = some r ∧
      r[col]? = some ec := by
  unfold Vigenere.encryptChar at h
  cases h1 : pyIndex pc v.charset with
  | none => simp only [h1] at h; exact Except.noConfusion h
  | some col =>
    simp only [h1] at h
    cases h2 : v.row tc with
    | none => simp only [h2] at h; exact Except.noConfusion h
    | some r =>
      simp only [h2] at h
      cases h3 : r[col]? with
      | none => simp only [h3] at h; exact Except.noConfusion h
      | some x =>
        simp only [h3, Except.ok.injEq] at h
        subst h
        exact ⟨col, r, rfl, rfl, h3⟩

theorem encryptChar_ok_mem {v : Vigenere} {pc tc ec : Char}
    (h : v.encryptChar pc tc = Except.ok ec) : ec ∈ v.charset := by
  obtain ⟨col, r, h1, h2, h3⟩ := encryptChar_ok_elim h
  obtain ⟨j, hj, hr⟩ := row_elim h2
  subst hr
  exact ((rowAt_perm v.charset j).mem_iff).mp (List.getElem?_mem h3)

theorem encryptChar_inverse {v : Vigenere} (hn : v.charset.Nodup) {pc tc : Char}
    (hpc : pc ∈ v.charset) (htc : tc ∈ v.charset) :
    ∃ ec, v.encryptChar pc tc = Except.ok ec ∧ ec ∈ v.charset ∧
      v.decryptChar pc ec = Except.ok tc := by
  obtain ⟨c, hc⟩ := List.getElem?_of_mem hpc
  obtain ⟨p, hp⟩ := List.getElem?_of_mem htc
  have hpn : p < v.charset.length := lt_of_getElem?_eq_some hp
  have hn0 : 0 < v.charset.length := Nat.lt_of_le_of_lt (Nat.zero_le p) hpn
  have hlt : (p + c) % v.charset.length < v.charset.length := Nat.mod_lt _ hn0
  have hex : ∃ ec, v.charset[(p + c) % v.charset.length]? = some ec := by
    rw [List.getElem?_eq_getElem hlt]
    exact ⟨_, rfl⟩
  obtain ⟨ec, hec⟩ := hex
  exact ⟨ec, encryptChar_eq hn hc hp hec, List.getElem?_mem hec,
    decryptChar_eq hn hc hp hec⟩

/-! ### The transform loops -/

theorem encLoop_spec (v : Vigenere) (text : List Char) :
    ∀ (fitted : List Char) (i : Nat),
      (∀ (j : Nat) (pc : Char), fitted[j]? = some pc →
        ∃ tc, text[i + j]? = some tc ∧ ∃ ec, v.encryptChar pc tc = Except.ok ec) →
      ∃ out, encLoop v text i fitted = Except.ok out ∧
        out.length = fitted.length ∧
        ∀ (j : Nat) (pc : Char), fitted[j]? = some pc →
          ∃ tc ec, text[i + j]? = some tc ∧ v.encryptChar pc tc = Except.ok ec ∧
            out[j]? = some ec := by
  intro fitted
  induction fitted with
  | nil =>
    intro i _
    refine ⟨[], rfl, rfl, ?_⟩
    intro j pc hj
    simp at hj
  | cons pc0 rest ih =>
    intro i h
    obtain ⟨tc0, htc0, ec0, hec0⟩ := h 0 pc0 (by simp)
    have htc0' : text[i]? = some tc0 := by simpa using htc0
    have hrest : ∀ (j : Nat) (pc : Char), rest[j]? = some pc →
        ∃ tc, text[(i + 1) + j]? = some tc ∧
          ∃ ec, v.encryptChar pc tc = Except.ok ec := by
      intro j pc hj
      have := h (j + 1) pc (by simpa using hj)
      rwa [show i + (j + 1) = (i + 1) + j by omega] at this
    obtain ⟨out, hout, hlen, hpt⟩ := ih (i + 1) hrest
    refine ⟨ec0 :: out, ?_, by simp [hlen], ?_⟩
    · simp only [encLoop, htc0', hec0, hout]
    · intro j pc hj
      cases j with
      | zero =>
        simp only [List.getElem?_cons_zero, Option.some.injEq] at hj
        subst hj
        exact ⟨tc0, ec0, htc0, hec0, by simp⟩
      | succ j =>
        simp only [List.getElem?_cons_succ] at hj
        obtain ⟨tc, ec, h1, h2, h3⟩ := hpt j pc hj
        refine ⟨tc, ec, ?_, h2, by simpa using h3⟩
        rwa [show (i + 1) + j = i + (j + 1) by omega] at h1

theorem decLoop_spec (v : Vigenere) (text : List Char) :
    ∀ (fitted : List Char) (i : Nat),
      (∀ (j : Nat) (pc : Char), fitted[j]? = some pc →
        ∃ tc, text[i + j]? = some tc ∧ ∃ dc, v.decryptChar pc tc = Except.ok dc) →
      ∃ out, decLoop v text i fitted = Except.ok out ∧
        out.length = fitted.length ∧
        ∀ (j : Nat) (pc : Char), fitted[j]? = some pc →
          ∃ tc dc, text[i + j]? = some tc ∧ v.decryptChar pc tc = Except.ok dc ∧
            out[j]? = some dc := by
  intro fitted
  induction fitted with
  | nil =>
    intro i _
    refine ⟨[], rfl, rfl, ?_⟩
    intro j pc hj
    simp at hj
  | cons pc0 rest ih =>
    intro i h
    obtain ⟨tc0, htc0, dc0, hdc0⟩ := h 0 pc0 (by simp)
    have htc0' : text[i]? = some tc0 := by simpa using htc0
    have hrest : ∀ (j : Nat) (pc : Char), rest[j]? = some pc →
        ∃ tc, text[(i + 1) + j]? = some tc ∧
          ∃ dc, v.decryptChar pc tc = Except.ok dc := by
      intro j pc hj
      have := h (j + 1) pc (by simpa using hj)
      rwa [show i + (j + 1) = (i + 1) + j by omega] at this
    obtain ⟨out, hout, hlen, hpt⟩ := ih (i + 1) hrest
    refine ⟨dc0 :: out, ?_, by simp [hlen], ?_⟩
    · simp only [decLoop, htc0', hdc0, hout]
    · intro j pc hj
      cases j with
      | zero =>
        simp only [List.getElem?_cons_zero, Option.some.injEq] at hj
        subst hj
        exact ⟨tc0, dc0, htc0, hdc0, by simp⟩
      | succ j =>
        simp only [List.getElem?_cons_succ] at hj
        obtain ⟨tc, dc, h1, h2, h3⟩ := hpt j pc hj
        refine ⟨tc, dc, ?_, h2, by simpa using h3⟩
        rwa [show (i + 1) + j = i + (j + 1) by omega] at h1

/-- Success of `encrypt` on a validated text over a well-formed engine,
with the per-position description of the ciphertext. -/
theorem encrypt_spec_aux (v : Vigenere) (hn : v.charset.Nodup)
    (hpk : ∀ c ∈ v.passkey, c ∈ v.charset)
    (text : List Char) (hv : v.validateText text = Except.ok ()) :
    ∃ out, v.encrypt text = Except.ok out ∧ out.length = text.length ∧
      ∀ (j : Nat) (pc : Char), (v.fittedPasskey text)[j]? = some pc →
        ∃ tc ec, text[j]? = some tc ∧ v.encryptChar pc tc = Except.ok ec ∧
          out[j]? = some ec := by
  obtain ⟨hleak, hmem⟩ := (validateText_ok_iff v text).mp hv
  have hpne : v.passkey ≠ [] := ne_nil_of_containsSub_eq_false hleak
  have hflen : (v.fittedPasskey text).length = text.length :=
    fittedPasskey_length text hpne
  have hpre : ∀ (j : Nat) (pc : Char), (v.fittedPasskey text)[j]? = some pc →
      ∃ tc, text[0 + j]? = some tc ∧ ∃ ec, v.encryptChar pc tc = Except.ok ec := by
    intro j pc hj
    have hjlt : j < text.length := hflen ▸ lt_of_getElem?_eq_some hj
    obtain ⟨tc, htc⟩ : ∃ tc, text[j]? = some tc :=
      ⟨_, List.getElem?_eq_getElem hjlt⟩
    have hpc_cs : pc ∈ v.charset := hpk _ (mem_fittedPasskey (List.getElem?_mem hj))
    have htc_cs : tc ∈ v.charset := hmem _ (List.getElem?_mem htc)
    obtain ⟨ec, hec, -, -⟩ := encryptChar_inverse hn hpc_cs htc_cs
    exact ⟨tc, by simpa using htc, ec, hec⟩
  obtain ⟨out, hloop, hlen, hpt⟩ := encLoop_spec v text (v.fittedPasskey text) 0 hpre
  refine ⟨out, ?_, by rw [hlen, hflen], ?_⟩
  · unfold Vigenere.encrypt
    rw [hv]
    exact hloop
  · intro j pc hj
    obtain ⟨tc, ec, h1, h2, h3⟩ := hpt j pc hj
    exact ⟨tc, ec, by simpa using h1, h2, h3⟩

/-! ### Claim C1: round-trip -/

/-- **C1, counterexample.** The round-trip claim fails as stated: over the
duplicate-free charset `"ab"` with passkey `"b"` (all of whose symbols lie in
the charset), the text `"a"` is made of charset symbols and does not contain
the passkey, yet `encrypt` yields `"b"`, on which `decrypt` raises
`PasskeyLeakage` instead of returning `"a"`. -/
theorem claim1_counterexample :
    (['a', 'b'] : List Char).Nodup ∧
    (∀ c ∈ (['b'] : List Char), c ∈ (['a', 'b'] : List Char)) ∧
    (∀ c ∈ (['a'] : List Char), c ∈ (['a', 'b'] : List Char)) ∧
    containsSub ['b'] ['a'] = false ∧
    Vigenere.encrypt ⟨['b'], ['a', 'b']⟩ ['a'] = Except.ok ['b'] ∧
    Vigenere.decrypt ⟨['b'], ['a', 'b']⟩ ['b'] = Except.error Err.passkeyLeakage ∧
    Except.error Err.passkeyLeakage ≠ (Except.ok ['a'] : Except Err (List Char)) :=
  ⟨by decide, by decide, by decide, by rfl, by rfl, by rfl,
    fun h => Except.noConfusion h⟩

/-- **C1 (amended).** For every engine built from a duplicate-free charset
and a passkey whose symbols all belong to the charset, and every text on
which `encrypt` succeeds with ciphertext `ct`: provided `ct` does not itself
contain the passkey as a substring (`decrypt` re-validates the ciphertext),
`decrypt ct` recovers the text exactly. -/
theorem claim1_roundTrip (v : Vigenere) (hn : v.charset.Nodup)
    (hpk : ∀ c ∈ v.passkey, c ∈ v.charset)
    (text ct : List Char) (henc : v.encrypt text = Except.ok ct)
    (hctleak : containsSub v.passkey ct = false) :
    v.decrypt ct = Except.ok text := by
  have hv : v.validateText text = Except.ok () := validate_ok_of_encrypt_ok henc
  obtain ⟨hleak, hmem⟩ := (validateText_ok_iff v text).mp hv
  have hpne : v.passkey ≠ [] := ne_nil_of_containsSub_eq_false hleak
  obtain ⟨out, hout, hlen, hpt⟩ := encrypt_spec_aux v hn hpk text hv
  have hctE : (Except.ok out : Except Err (List Char)) = Except.ok ct := by
    rw [← hout, henc]
  have hcteq : out = ct := by injection hctE
  subst hcteq
  have hfl : (v.fittedPasskey text).length = text.length :=
    fittedPasskey_length text hpne
  have hflcongr : v.fittedPasskey out = v.fittedPasskey text :=
    fittedPasskey_congr hlen
  have hmem_out : ∀ c ∈ out, c ∈ v.charset := by
    intro c hc
    obtain ⟨j, hj⟩ := List.getElem?_of_mem hc
    have hjlt : j < text.length := hlen ▸ lt_of_getElem?_eq_some hj
    have hjf : j < (v.fittedPasskey text).length := by rw [hfl]; exact hjlt
    obtain ⟨pc, hpc⟩ : ∃ pc, (v.fittedPasskey text)[j]? = some pc :=
      ⟨_, List.getElem?_eq_getElem hjf⟩
    obtain ⟨tc, ec, h1, h2, h3⟩ := hpt j pc hpc
    have hec : some ec = some c := by rw [← h3, hj]
    have hec' : ec = c := by injection hec
    exact hec' ▸ encryptChar_ok_mem h2
  have hvout : v.validateText out = Except.ok () :=
    (validateText_ok_iff v out).mpr ⟨hctleak, hmem_out⟩
  have hdp : ∀ (j : Nat) (pc : Char), (v.fittedPasskey text)[j]? = some pc →
      ∃ tc, out[0 + j]? = some tc ∧ ∃ dc, v.decryptChar pc tc = Except.ok dc := by
    intro j pc hpc
    obtain ⟨tc, ec, h1, h2, h3⟩ := hpt j pc hpc
    have hpc_cs : pc ∈ v.charset := hpk _ (mem_fittedPasskey (List.getElem?_mem hpc))
    have htc_cs : tc ∈ v.charset := hmem _ (List.getElem?_mem h1)
    obtain ⟨ec', he', -, hd'⟩ := encryptChar_inverse hn hpc_cs htc_cs
    have hee : ec' = ec := by
      have hx : (Except.ok ec' : Except Err Char) = Except.ok ec := by
        rw [← he', h2]
      injection hx
    refine ⟨ec, by simpa using h3, tc, ?_⟩
    rw [← hee]
    exact hd'
  obtain ⟨out2, hloop2, hlen2, hpt2⟩ := decLoop_spec v out (v.fittedPasskey text) 0 hdp
  have hout2 : out2 = text := by
    apply List.ext_getElem?
    intro n
    by_cases hlt : n < text.length
    · have hnf : n < (v.fittedPasskey text).length := by rw [hfl]; exact hlt
      obtain ⟨pc, hpc⟩ : ∃ pc, (v.fittedPasskey text)[n]? = some pc :=
        ⟨_, List.getElem?_eq_getElem hnf⟩
      obtain ⟨tc, dc, h1, h2, h3⟩ := hpt2 n pc hpc
      obtain ⟨tc0, ec0, g1, g2, g3⟩ := hpt n pc hpc
      have h1' : out[n]? = some tc := by simpa using h1
      have htc_ec : tc = ec0 := by
        have hx : some tc = some ec0 := by rw [← h1', g3]
        injection hx
      have hpc_cs : pc ∈ v.charset := hpk _ (mem_fittedPasskey (List.getElem?_mem hpc))
      have htc0_cs : tc0 ∈ v.charset := hmem _ (List.getElem?_mem g1)
      obtain ⟨ec', he', -, hd'⟩ := encryptChar_inverse hn hpc_cs htc0_cs
      have hee : ec' = ec0 := by
        have hx : (Except.ok ec' : Except Err Char) = Except.ok ec0 := by
          rw [← he', g2]
        injection hx
      have hdecl : v.decryptChar pc tc = Except.ok tc0 := by
        rw [htc_ec, ← hee]
        exact hd'
      have hdc : dc = tc0 := by
        have hx : (Except.ok dc : Except Err Char) = Except.ok tc0 := by
          rw [← h2, hdecl]
        injection hx
      rw [h3, g1, hdc]
    · have hn1 : out2[n]? = none := by
        apply List.getElem?_eq_none
        rw [hlen2, hfl]
        omega
      have hn2 : text[n]? = none := by
        apply List.getElem?_eq_none
        omega
      rw [hn1, hn2]
  unfold Vigenere.decrypt
  rw [hvout, hflcongr]
  rw [hout2] at hloop2
  exact hloop2

/-- **C1, witness** for the amended round-trip at a concrete engine. -/
theorem claim1_witness :
    Vigenere.decrypt ⟨['a'], ['a', 'b']⟩ ['b'] = Except.ok ['b'] :=
  claim1_roundTrip ⟨['a'], ['a', 'b']⟩ (by decide) (by decide) ['b'] ['b']
    (by rfl) (by rfl)

/-! ### Claim C2: the table arithmetic -/

/-- **C2.** Over a duplicate-free charset of length `n`, encrypting the
symbol at position `p` with a keystream symbol at position `c` yields the
symbol at position `(p + c) % n`, and decrypting that symbol with the same
keystream symbol (row keyed by the keystream symbol, returning the charset
symbol at the found position) recovers the symbol at position `p`. -/
theorem claim2_tableArithmetic (v : Vigenere) (hn : v.charset.Nodup)
    (p c : Nat) (pc tc : Char)
    (hkc : v.charset[c]? = some pc) (htc : v.charset[p]? = some tc) :
    ∃ ec, v.charset[(p + c) % v.charset.length]? = some ec ∧
      v.encryptChar pc tc = Except.ok ec ∧
      v.decryptChar pc ec = Except.ok tc := by
  have hpn : p < v.charset.length := lt_of_getElem?_eq_some htc
  have hn0 : 0 < v.charset.length := Nat.lt_of_le_of_lt (Nat.zero_le p) hpn
  have hlt : (p + c) % v.charset.length < v.charset.length := Nat.mod_lt _ hn0
  have hec := List.getElem?_eq_getElem hlt
  exact ⟨_, hec, encryptChar_eq hn hkc htc hec, decryptChar_eq hn hkc htc hec⟩

/-- **C2, witness**: position 1 encrypted with keystream position 2 in a
3-symbol charset lands on position 0 and decrypts back. -/
theorem claim2_witness :
    ∃ ec, (Vigenere.mk ['b'] ['a', 'b', 'c']).charset[(1 + 2) %
        (Vigenere.mk ['b'] ['a', 'b', 'c']).charset.length]? = some ec ∧
      (Vigenere.mk ['b'] ['a', 'b', 'c']).encryptChar 'c' 'b' = Except.ok ec ∧
      (Vigenere.mk ['b'] ['a', 'b', 'c']).decryptChar 'c' ec = Except.ok 'b' :=
  claim2_tableArithmetic (Vigenere.mk ['b'] ['a', 'b', 'c']) (by decide)
    1 2 'c' 'b' (by rfl) (by rfl)

/-! ### Claim C3: shape of `encrypt` -/

/-- **C3.** On a text that passes validation (over a well-formed engine),
`encrypt` succeeds; the ciphertext has the length of the input, and the
symbol at each position `i` is `table[text[i]][col]` where `col` is the index
in the charset of the `i`-th fitted-keystream symbol. -/
theorem claim3_encryptShape (v : Vigenere) (hn : v.charset.Nodup)
    (hpk : ∀ c ∈ v.passkey, c ∈ v.charset)
    (text : List Char) (hv : v.validateText text = Except.ok ()) :
    ∃ out, v.encrypt text = Except.ok out ∧ out.length = text.length ∧
      ∀ (i : Nat) (ki : Char), (v.fittedPasskey text)[i]? = some ki →
        ∃ ti col r, text[i]? = some ti ∧ pyIndex ki v.charset = some col ∧
          v.row ti = some r ∧ out[i]? = r[col]? := by
  obtain ⟨out, hout, hlen, hpt⟩ := encrypt_spec_aux v hn hpk text hv
  refine ⟨out, hout, hlen, ?_⟩
  intro i ki hi
  obtain ⟨tc, ec, h1, h2, h3⟩ := hpt i ki hi
  obtain ⟨col, r, g1, g2, g3⟩ := encryptChar_ok_elim h2
  exact ⟨tc, col, r, h1, g1, g2, by rw [h3, g3]⟩

/-- **C3, witness** at a concrete engine and text. -/
theorem claim3_witness :
    ∃ out, Vigenere.encrypt ⟨['b'], ['a', 'b', 'c']⟩ ['a', 'c'] = Except.ok out ∧
      out.length = (['a', 'c'] : List Char).length ∧
      ∀ (i : Nat) (ki : Char),
        (Vigenere.fittedPasskey ⟨['b'], ['a', 'b', 'c']⟩ ['a', 'c'])[i]? = some ki →
        ∃ ti col r, (['a', 'c'] : List Char)[i]? = some ti ∧
          pyIndex ki (Vigenere.mk ['b'] ['a', 'b', 'c']).charset = some col ∧
          Vigenere.row ⟨['b'], ['a', 'b', 'c']⟩ ti = some r ∧ out[i]? = r[col]? :=
  claim3_encryptShape ⟨['b'], ['a', 'b', 'c']⟩ (by decide) (by decide)
    ['a', 'c'] (by rfl)

/-! ### Claim C4: keystream fitting -/

/-- **C4.** For a non-empty passkey `P` of length `k` and a text of length
`L`, the fitted keystream is `P.take L` when `L ≤ k`, and otherwise `P`
repeated `L / k` whole times followed by `P.take (L % k)`; its length is
always exactly `L`. -/
theorem claim4_fittedPasskey (v : Vigenere) (hp : v.passkey ≠ [])
    (text : List Char) :
    (v.fittedPasskey text).length = text.length ∧
    (text.length ≤ v.passkey.length →
      v.fittedPasskey text = v.passkey.take text.length) ∧
    (v.passkey.length < text.length →
      v.fittedPasskey text =
        repeatList v.passkey (text.length / v.passkey.length)
          ++ v.passkey.take (text.length % v.passkey.length)) :=
  ⟨fittedPasskey_length text hp,
   fun h => fittedPasskey_take h,
   fun h => fittedPasskey_rep hp h⟩

/-- **C4, witness**: passkey `"abc"` and a length-4 text give `"abca"`. -/
theorem claim4_witness :
    (Vigenere.fittedPasskey ⟨['a', 'b', 'c'], ['a', 'b', 'c', '1', '2', '3', '4']⟩
        ['1', '2', '3', '4']).length = 4 ∧
    Vigenere.fittedPasskey ⟨['a', 'b', 'c'], ['a', 'b', 'c', '1', '2', '3', '4']⟩
        ['1', '2', '3', '4'] = ['a', 'b', 'c', 'a'] :=
  ⟨(claim4_fittedPasskey ⟨['a', 'b', 'c'], ['a', 'b', 'c', '1', '2', '3', '4']⟩
      (by decide) ['1', '2', '3', '4']).1, by rfl⟩

/-! ### Claim C5: the substitution table -/

/-- **C5.** Over a duplicate-free charset `C` of length `n`: the table has
`n` rows; the row keyed by the symbol at position `i` is the rotation
`C[i:] + C[:i]`; the rotation at position 0 is `C` itself; and every
rotation is a permutation of `C` with `n` symbols. -/
theorem claim5_table (v : Vigenere) (hn : v.charset.Nodup) :
    v.rowsList.length = v.charset.length ∧
    (∀ (i : Nat) (c : Char), v.charset[i]? = some c →
      v.row c = some (rowAt v.charset i)) ∧
    rowAt v.charset 0 = v.charset ∧
    (∀ i : Nat, (rowAt v.charset i).Perm v.charset ∧
      (rowAt v.charset i).length = v.charset.length) :=
  ⟨rowsList_length v,
   fun _ _ h => row_eq_of_nodup hn h,
   rowAt_zero v.charset,
   fun i => ⟨rowAt_perm v.charset i, rowAt_length v.charset i⟩⟩

/-- **C5, witness**: the row keyed by `'b'` in charset `"abc"` is `"bca"`. -/
theorem claim5_witness :
    Vigenere.row ⟨['b'], ['a', 'b', 'c']⟩ 'b' = some ['b', 'c', 'a'] :=
  (claim5_table ⟨['b'], ['a', 'b', 'c']⟩ (by decide)).2.1 1 'b' (by rfl)

/-! ### Claim C6: text validation -/

/-- **C6.** Validation raises `PasskeyLeakage` when the passkey occurs as a
contiguous substring of the text; otherwise, if the text has a symbol
outside the charset it raises `InvalidCharacters` reporting exactly the set
of distinct offending symbols; otherwise it passes.  Any validation error is
raised before any transformation output: `encrypt` and `decrypt` return that
very error. -/
theorem claim6_validate (v : Vigenere) (text : List Char) :
    (containsSub v.passkey text = true →
      v.validateText text = Except.error Err.passkeyLeakage) ∧
    (containsSub v.passkey text = false →
      ∀ c : Char, c ∈ text → c ∉ v.charset →
        ∃ d, v.validateText text = Except.error (Err.invalidCharacters d) ∧
          d.Nodup ∧ ∀ x : Char, x ∈ d ↔ x ∈ text ∧ x ∉ v.charset) ∧
    ((containsSub v.passkey text = false ∧ ∀ c ∈ text, c ∈ v.charset) →
      v.validateText text = Except.ok ()) ∧
    (∀ e : Err, v.validateText text = Except.error e →
      v.encrypt text = Except.error e ∧ v.decrypt text = Except.error e) := by
  refine ⟨validateText_leak, ?_, fun h => (validateText_ok_iff v text).mpr h, ?_⟩
  · intro h1 c hct hcn
    exact ⟨_, validateText_invalid h1 ⟨c, hct, hcn⟩, List.nodup_dedup _,
      fun x => diff_mem_iff v text x⟩
  · intro e he
    exact ⟨encrypt_error_of_validate he, decrypt_error_of_validate he⟩

/-- **C6, witness**: leaking text over a concrete engine. -/
theorem claim6_witness :
    Vigenere.validateText ⟨['a'], ['a', 'b']⟩ ['b', 'a']
      = Except.error Err.passkeyLeakage :=
  (claim6_validate ⟨['a'], ['a', 'b']⟩ ['b', 'a']).1 (by rfl)

/-! ### Claim C7: construction -/

/-- **C7.** Construction fails with `InvalidPasskey` iff some passkey symbol
is absent from the charset; on success, passkey and charset are stored
unchanged. -/
theorem claim7_make (passkey charset : List Char) :
    (Vigenere.make passkey charset = Except.error Err.invalidPasskey ↔
      ∃ c ∈ passkey, c ∉ charset) ∧
    ((∀ c ∈ passkey, c ∈ charset) →
      Vigenere.make passkey charset = Except.ok ⟨passkey, charset⟩) := by
  constructor
  · constructor
    · intro h
      by_contra hno
      push_neg at hno
      have hall : passkey.all (fun c => decide (c ∈ charset)) = true := by
        rw [List.all_eq_true]
        intro x hx
        exact decide_eq_true (hno x hx)
      unfold Vigenere.make at h
      rw [if_pos hall] at h
      exact Except.noConfusion h
    · rintro ⟨c, hc, hcn⟩
      have h2 : ¬ (passkey.all (fun c => decide (c ∈ charset)) = true) := by
        rw [List.all_eq_true]
        intro hall
        exact hcn (by simpa using hall c hc)
      unfold Vigenere.make
      rw [if_neg h2]
  · intro h
    have hall : passkey.all (fun c => decide (c ∈ charset)) = true := by
      rw [List.all_eq_true]
      intro x hx
      exact decide_eq_true (h x hx)
    unfold Vigenere.make
    rw [if_pos hall]

/-- **C7, witness**: both branches at concrete inputs. -/
theorem claim7_witness :
    Vigenere.make ['z'] ['a', 'b'] = Except.error Err.invalidPasskey ∧
    Vigenere.make ['a'] ['a', 'b'] = Except.ok ⟨['a'], ['a', 'b']⟩ :=
  ⟨(claim7_make ['z'] ['a', 'b']).1.mpr ⟨'z', by decide, by decide⟩,
   (claim7_make ['a'] ['a', 'b']).2 (by decide)⟩

/-! ### Claim C8: identity passkey -/

/-- **C8.** When the passkey is the single symbol at position 0 of a
duplicate-free charset, `encrypt` returns every validated text unchanged
(row 0 of the table is the identity rotation). -/
theorem claim8_identity (v : Vigenere) (c0 : Char) (hn : v.charset.Nodup)
    (hpk : v.passkey = [c0]) (h0 : v.charset[0]? = some c0)
    (text : List Char) (hv : v.validateText text = Except.ok ()) :
    v.encrypt text = Except.ok text := by
  obtain ⟨pk, cs⟩ := v
  simp only at hpk h0 hn ⊢
  subst hpk
  obtain ⟨hleak, hmem⟩ := (validateText_ok_iff _ text).mp hv
  have hpk_cs : ∀ c ∈ (Vigenere.mk [c0] cs).passkey, c ∈ (Vigenere.mk [c0] cs).charset := by
    intro c hc
    have hc0 : c = c0 := by simpa using hc
    subst hc0
    exact List.getElem?_mem h0
  obtain ⟨out, hout, hlen, hpt⟩ := encrypt_spec_aux _ hn hpk_cs text hv
  have hfit : Vigenere.fittedPasskey ⟨[c0], cs⟩ text = List.replicate text.length c0 :=
    fittedPasskey_single cs c0 text
  have hout_text : out = text := by
    apply List.ext_getElem?
    intro n
    by_cases hlt : n < text.length
    · have hnf : (Vigenere.fittedPasskey ⟨[c0], cs⟩ text)[n]? = some c0 := by
        rw [hfit]
        exact List.getElem?_replicate_of_lt hlt
      obtain ⟨tc, ec, h1, h2, h3⟩ := hpt n c0 hnf
      obtain ⟨p, hp⟩ := List.getElem?_of_mem (hmem tc (List.getElem?_mem h1))
      have hpn : p < cs.length := lt_of_getElem?_eq_some hp
      have hec0 : ((Vigenere.mk [c0] cs).charset)[(p + 0) %
          (Vigenere.mk [c0] cs).charset.length]? = some tc := by
        show cs[(p + 0) % cs.length]? = some tc
        rw [Nat.add_zero, Nat.mod_eq_of_lt hpn]
        exact hp
      have hid : Vigenere.encryptChar ⟨[c0], cs⟩ c0 tc = Except.ok tc :=
        encryptChar_eq hn h0 hp hec0
      have hec_tc : ec = tc := by
        have hx : (Except.ok ec : Except Err Char) = Except.ok tc := by
          rw [← h2, hid]
        injection hx
      rw [h3, h1, hec_tc]
    · have hn1 : out[n]? = none := by
        apply List.getElem?_eq_none
        omega
      have hn2 : text[n]? = none := by
        apply List.getElem?_eq_none
        omega
      rw [hn1, hn2]
  rw [hout_text] at hout
  exact hout

/-- **C8, witness** at a concrete engine. -/
theorem claim8_witness :
    Vigenere.encrypt ⟨['a'], ['a', 'b']⟩ ['b'] = Except.ok ['b'] :=
  claim8_identity ⟨['a'], ['a', 'b']⟩ 'a' (by decide) rfl (by rfl) ['b'] (by rfl)

/-! ### Claim C9: the table display -/

theorem foldl_lineOf (sep : List Char) :
    ∀ (d : List (Char × List Char)) (acc : List Char),
      d.foldl (fun a kv => a ++ lineOf sep kv) acc
        = acc ++ (d.map (lineOf sep)).flatten := by
  intro d
  induction d with
  | nil => intro acc; simp
  | cons kv rest ih =>
    intro acc
    show rest.foldl (fun a kv => a ++ lineOf sep kv) (acc ++ lineOf sep kv)
        = acc ++ ((kv :: rest).map (lineOf sep)).flatten
    rw [ih, List.map_cons, List.flatten_cons, List.append_assoc]

/-- **C9.** `show` fails with `InvalidSeparator` iff the separator occurs
inside the charset or equals a newline; otherwise it returns the
concatenation of one line per table row: the quoted key symbol, the
separator, and the row's quoted symbols joined by the separator. -/
theorem claim9_showTable (v : Vigenere) (sep : List Char) :
    (v.showTable sep = Except.error Err.invalidSeparator ↔
      containsSub sep v.charset = true ∨ sep = [Char.ofNat 10]) ∧
    (¬ (containsSub sep v.charset = true ∨ sep = [Char.ofNat 10]) →
      v.showTable sep = Except.ok ((v.rowsList.map (lineOf sep)).flatten) ∧
      (v.rowsList.map (lineOf sep)).length = v.rowsList.length) := by
  constructor
  · constructor
    · intro h
      by_contra hno
      unfold Vigenere.showTable at h
      rw [if_neg hno] at h
      exact Except.noConfusion h
    · intro h
      unfold Vigenere.showTable
      rw [if_pos h]
  · intro h
    unfold Vigenere.showTable
    rw [if_neg h]
    exact ⟨by rw [foldl_lineOf sep v.rowsList []]; rfl, by simp⟩

/-- **C9, witness**: a newline separator is rejected. -/
theorem claim9_witness :
    Vigenere.showTable ⟨['a'], ['a', 'b']⟩ [Char.ofNat 10]
      = Except.error Err.invalidSeparator :=
  (claim9_showTable ⟨['a'], ['a', 'b']⟩ [Char.ofNat 10]).1.mpr (Or.inr rfl)

/-! ### Claim C10: the empty passkey -/

/-- **C10.** Constructing with an empty passkey succeeds (the empty set is a
subset of every charset), but every later `encrypt` or `decrypt` call — on
every text, the empty one included — fails with `PasskeyLeakage`, because
the empty string is a substring of every string. -/
theorem claim10_emptyPasskey (charset text : List Char) :
    Vigenere.make [] charset = Except.ok ⟨[], charset⟩ ∧
    Vigenere.encrypt ⟨[], charset⟩ text = Except.error Err.passkeyLeakage ∧
    Vigenere.decrypt ⟨[], charset⟩ text = Except.error Err.passkeyLeakage := by
  refine ⟨?_, ?_, ?_⟩
  · unfold Vigenere.make
    rw [if_pos (by simp)]
  · exact encrypt_error_of_validate (validateText_leak (containsSub_nil text))
  · exact decrypt_error_of_validate (validateText_leak (containsSub_nil text))

end Vig
